import Mathlib

/-!
Verification of the cryptographic identity layer (core/crypto/src/signature.rs):
key types, public keys, secret keys, signatures, their base58 textual codec and
their borsh binary codec.  Byte buffers are modelled as `List Nat` with every
entry below 256; machine big-number buffers are modelled as `Nat`.  Operations
that can panic in the source are modelled with an `Option` whose `none` value
marks the panic.
-/

/-- Algorithm tag: the `KeyType` enum of the source (`ED25519 = 0`,
`SECP256K1 = 1`, `RSA2048 = 2`). -/
inductive KeyType where
  | ed25519
  | secp256k1
  | rsa2048
  deriving DecidableEq

/-- Canonical lowercase name of a key type, from `impl Display for KeyType`. -/
def KeyType.name : KeyType → List Char
  | .ed25519 => ['e', 'd', '2', '5', '5', '1', '9']
  | .secp256k1 => ['s', 'e', 'c', 'p', '2', '5', '6', 'k', '1']
  | .rsa2048 => ['r', 's', 'a', '2', '0', '4', '8']

/-- Tag byte of a key type, from the enum discriminants. -/
def KeyType.tagByte : KeyType → Nat
  | .ed25519 => 0
  | .secp256k1 => 1
  | .rsa2048 => 2

/-- Error taxonomy for key-type parsing.  Modelled from the spec: the concrete
`crate::errors` module is not among the provided sources; section 7 of the spec
gives the `UnknownAlgorithm` kind, whose payload we keep as the offending
characters. -/
inductive ParseKeyTypeError where
  | unknownKeyType (name : List Char)
  deriving DecidableEq

/-- Error taxonomy for key parsing.  Modelled from the spec: section 7 lists
`InvalidLength` with expected/received sizes, `InvalidData`, and the
unknown-algorithm kind; the message payload of `InvalidData` is dropped. -/
inductive ParseKeyError where
  | invalidLength (expected received : Nat)
  | invalidData
  | unknownKeyType (name : List Char)
  deriving DecidableEq

/-- Error taxonomy for signature parsing.  Modelled from the spec, as for
`ParseKeyError`. -/
inductive ParseSignatureError where
  | invalidLength (expected received : Nat)
  | invalidData
  | unknownKeyType (name : List Char)
  deriving DecidableEq

/-- ASCII lowercasing of one character, the `to_ascii_lowercase` used by
`KeyType::from_str`. -/
def asciiLower (c : Char) : Char :=
  if 'A' ≤ c ∧ c ≤ 'Z' then Char.ofNat (c.toNat + 32) else c

/-- `impl FromStr for KeyType`: lowercase the input and match the three
canonical names. -/
def KeyType.fromChars (s : List Char) : Except ParseKeyTypeError KeyType :=
  let l := s.map asciiLower
  if l = KeyType.name .ed25519 then .ok .ed25519
  else if l = KeyType.name .secp256k1 then .ok .secp256k1
  else if l = KeyType.name .rsa2048 then .ok .rsa2048
  else .error (.unknownKeyType l)

/-- `impl TryFrom<u8> for KeyType`: match the tag byte 0/1/2. -/
def KeyType.fromByte (b : Nat) : Except ParseKeyTypeError KeyType :=
  match b with
  | 0 => .ok .ed25519
  | 1 => .ok .secp256k1
  | 2 => .ok .rsa2048
  | _ => .error (.unknownKeyType [])

/-- Splitting of a character list at its first colon, the `str::split_once`
used by `split_key_type_data`. -/
def splitColon : List Char → Option (List Char × List Char)
  | [] => none
  | c :: cs =>
    if c = ':' then some ([], cs)
    else
      match splitColon cs with
      | none => none
      | some (a, b) => some (c :: a, b)

/-- `split_key_type_data`: split at the first colon and parse the algorithm
name; with no colon present default to Ed25519 and return the whole string. -/
def split_key_type_data (s : List Char) : Except ParseKeyTypeError (KeyType × List Char) :=
  match splitColon s with
  | some (t, d) =>
    match KeyType.fromChars t with
    | .ok k => .ok (k, d)
    | .error e => .error e
  | none => .ok (.ed25519, s)

/-- Big-endian value of a digit list in base `B`, the accumulator loop of the
bs58 big-number codec. -/
def natOfBEBase (B : Nat) (l : List Nat) : Nat :=
  l.foldl (fun a d => a * B + d) 0

/-- Length of the leading run of elements satisfying `p`. -/
def countLead {α : Type} (p : α → Bool) : List α → Nat
  | [] => 0
  | x :: xs => if p x then countLead p xs + 1 else 0

/-- Fuelled base-`b` little-endian digit expansion; agrees with `Nat.digits`
whenever the fuel dominates the value (see `natDigitsAux_eq_digits`).  The
fuel keeps the definition structurally recursive and kernel-evaluable. -/
def natDigitsAux (b : Nat) : Nat → Nat → List Nat
  | 0, _ => []
  | fuel + 1, n => if n = 0 then [] else n % b :: natDigitsAux b fuel (n / b)

/-- Bitcoin base58 alphabet of the bs58 crate. -/
def b58Alphabet : List Char :=
  ['1', '2', '3', '4', '5', '6', '7', '8', '9',
   'A', 'B', 'C', 'D', 'E', 'F', 'G', 'H', 'J', 'K', 'L', 'M', 'N',
   'P', 'Q', 'R', 'S', 'T', 'U', 'V', 'W', 'X', 'Y', 'Z',
   'a', 'b', 'c', 'd', 'e', 'f', 'g', 'h', 'i', 'j', 'k', 'm', 'n',
   'o', 'p', 'q', 'r', 's', 't', 'u', 'v', 'w', 'x', 'y', 'z']

/-- Character of one base58 digit. -/
def b58Char (d : Nat) : Char := b58Alphabet.getD d '1'

/-- Position of a character in a list, counting from `i`. -/
def b58DigitAux (c : Char) : List Char → Nat → Option Nat
  | [], _ => none
  | a :: as, i => if a = c then some i else b58DigitAux c as (i + 1)

/-- Digit value of a character in the base58 alphabet, `none` for a character
outside the alphabet (the decode-table lookup of the bs58 crate). -/
def b58Digit (c : Char) : Option Nat := b58DigitAux c b58Alphabet 0

/-- Base58 encoding of a byte buffer as done by the `Bs58` display helper via
the bs58 crate: one `'1'` per leading zero byte followed by the big-endian
base58 digits of the buffer's value. -/
def encodeBs58 (data : List Nat) : List Char :=
  List.replicate (countLead (· == 0) data) '1' ++
    ((natDigitsAux 58 (2 * data.length + 1) (natOfBEBase 256 data)).reverse.map b58Char)

/-- Raw failures of the bs58 crate's decode-into-buffer loop. -/
inductive Bs58RawError where
  | badChar
  | bufferTooSmall
  deriving DecidableEq

/-- Sequential digit loop of `bs58::decode(...).into(buf)` with an `n`-byte
buffer: each character is decoded and folded into the big number held in the
buffer; an unknown character fails, and the number outgrowing `n` bytes fails
with `bufferTooSmall`. -/
def b58Fold (n : Nat) : Nat → List Char → Except Bs58RawError Nat
  | acc, [] => .ok acc
  | acc, c :: cs =>
    match b58Digit c with
    | none => .error .badChar
    | some d =>
      if 256 ^ n ≤ acc * 58 + d then .error .bufferTooSmall
      else b58Fold n (acc * 58 + d) cs

/-- Pure base58 value of a character list (unknown characters count as 0;
only used beneath validity assumptions). -/
def b58ValueAcc (acc : Nat) (s : List Char) : Nat :=
  s.foldl (fun a c => a * 58 + (b58Digit c).getD 0) acc

/-- Count of leading `'1'` characters, the zero-byte prefix loop of the bs58
decoder. -/
def leadOnes (s : List Char) : Nat := countLead (· == '1') s

/-- Bytes a valid base58 string decodes to: one zero byte per leading `'1'`
followed by the big-endian bytes of its value. -/
def bs58Decoded (s : List Char) : List Nat :=
  List.replicate (leadOnes s) 0 ++
    (natDigitsAux 256 (s.length + 1) (b58ValueAcc 0 s)).reverse

/-- `bs58::decode(encoded).into(buf)` for an `n`-byte buffer: run the digit
loop, then append one zero byte per leading `'1'` (failing with
`bufferTooSmall` when the total outgrows the buffer) and reverse into
big-endian order, reporting the written bytes. -/
def bs58DecodeIntoBuf (n : Nat) (s : List Char) : Except Bs58RawError (List Nat) :=
  match b58Fold n 0 s with
  | .error e => .error e
  | .ok v =>
    let out := List.replicate (leadOnes s) 0 ++ (natDigitsAux 256 (s.length + 1) v).reverse
    if n < out.length then .error .bufferTooSmall else .ok out

/-- `DecodeBs58Error` of the source. -/
inductive DecodeBs58Error where
  | badLength (expected received : Nat)
  | badData
  deriving DecidableEq

/-- `decode_bs58::<N>` / `decode_bs58_impl`: decode into an `N`-byte buffer;
a decoded length different from `N` is `BadLength` with the received length,
too-long input is `BadLength` with received `N + 1` (the crate's
`BufferTooSmall` case), and a bad character is `BadData`. -/
def decode_bs58 (n : Nat) (s : List Char) : Except DecodeBs58Error (List Nat) :=
  match bs58DecodeIntoBuf n s with
  | .ok bytes => if bytes.length = n then .ok bytes else .error (.badLength n bytes.length)
  | .error .bufferTooSmall => .error (.badLength n (n + 1))
  | .error .badChar => .error .badData

/-- `parse_bs58_data(max_len, encoded)`: decode into a buffer of
`min max_len encoded.len()` bytes and keep the written prefix. -/
def parse_bs58_data (maxLen : Nat) (s : List Char) : Except DecodeBs58Error (List Nat) :=
  let m := min maxLen s.length
  match bs58DecodeIntoBuf m s with
  | .ok bytes => .ok bytes
  | .error .bufferTooSmall => .error (.badLength m (m + 1))
  | .error .badChar => .error .badData

/-- `impl From<DecodeBs58Error> for ParseKeyError`. -/
def DecodeBs58Error.toParseKeyError : DecodeBs58Error → ParseKeyError
  | .badLength e r => .invalidLength e r
  | .badData => .invalidData

/-- `impl From<DecodeBs58Error> for ParseSignatureError`. -/
def DecodeBs58Error.toParseSignatureError : DecodeBs58Error → ParseSignatureError
  | .badLength e r => .invalidLength e r
  | .badData => .invalidData

/-- Public key container: `PublicKey` of the source (Ed25519 32 bytes,
Secp256k1 uncompressed 64 bytes, Rsa2048 294 DER bytes). -/
inductive PublicKey where
  | ed25519 (data : List Nat)
  | secp256k1 (data : List Nat)
  | rsa (data : List Nat)
  deriving DecidableEq

/-- `PublicKey::key_type`. -/
def PublicKey.keyType : PublicKey → KeyType
  | .ed25519 _ => .ed25519
  | .secp256k1 _ => .secp256k1
  | .rsa _ => .rsa2048

/-- `PublicKey::key_data`. -/
def PublicKey.keyData : PublicKey → List Nat
  | .ed25519 d => d
  | .secp256k1 d => d
  | .rsa d => d

/-- Fixed raw length of a public key per algorithm. -/
def publicKeySize : KeyType → Nat
  | .ed25519 => 32
  | .secp256k1 => 64
  | .rsa2048 => 294

/-- `PublicKey::empty`: the all-zero key of the variant's fixed length. -/
def PublicKey.empty (t : KeyType) : PublicKey :=
  match t with
  | .ed25519 => .ed25519 (List.replicate 32 0)
  | .secp256k1 => .secp256k1 (List.replicate 64 0)
  | .rsa2048 => .rsa (List.replicate 294 0)

/-- Carrier set of the Rust `PublicKey` type: the stored array has the
variant's fixed length and holds bytes. -/
def PublicKey.wf (pk : PublicKey) : Prop :=
  pk.keyData.length = publicKeySize pk.keyType ∧ ∀ x ∈ pk.keyData, x < 256

instance (pk : PublicKey) : Decidable pk.wf := by
  unfold PublicKey.wf; infer_instance

/-- `impl Display for PublicKey`: algorithm name, colon, base58 payload. -/
def PublicKey.display (pk : PublicKey) : List Char :=
  pk.keyType.name ++ ':' :: encodeBs58 pk.keyData

/-- `impl FromStr for PublicKey`: split the prefix, then fixed-size base58
decode of the variant's length. -/
def PublicKey.fromStr (s : List Char) : Except ParseKeyError PublicKey :=
  match split_key_type_data s with
  | .error (.unknownKeyType n) => .error (.unknownKeyType n)
  | .ok (.ed25519, d) =>
    match decode_bs58 32 d with
    | .ok bytes => .ok (.ed25519 bytes)
    | .error e => .error e.toParseKeyError
  | .ok (.secp256k1, d) =>
    match decode_bs58 64 d with
    | .ok bytes => .ok (.secp256k1 bytes)
    | .error e => .error e.toParseKeyError
  | .ok (.rsa2048, d) =>
    match decode_bs58 294 d with
    | .ok bytes => .ok (.rsa bytes)
    | .error e => .error e.toParseKeyError

/-- Order of the secp256k1 curve, the `SECP256K1_N` constant of the source
(`U256` limbs composed little-endian). -/
def SECP256K1_N : Nat :=
  0xbfd25e8cd0364141 + 0xbaaedce6af48a03b * 2 ^ 64 +
    0xfffffffffffffffe * 2 ^ 128 + 0xffffffffffffffff * 2 ^ 192

/-- Half of `SECP256K1_N` plus one, the `SECP256K1_N_HALF_ONE` constant of
the source. -/
def SECP256K1_N_HALF_ONE : Nat :=
  0xdfe92f46681b20a1 + 0x5d576e7357a4501d * 2 ^ 64 +
    0xffffffffffffffff * 2 ^ 128 + 0x7fffffffffffffff * 2 ^ 192

/-- Secret key container: `SecretKey` of the source.  The Ed25519 variant
holds the 64-byte keypair material and the Secp256k1 variant the 32-byte
scalar.  The RSA variant is identified with its PKCS#8 DER encoding —
modelled from the spec: the `rsa::RsaPrivateKey` structure lives in an
external primitive library treated as a black box, and its textual form is
exactly its PKCS#8 DER bytes. -/
inductive SecretKey where
  | ed25519 (data : List Nat)
  | secp256k1 (data : List Nat)
  | rsa (der : List Nat)
  deriving DecidableEq

/-- Validity of a 32-byte secp256k1 secret scalar.  Modelled from the spec:
`secp256k1::SecretKey::from_slice` of the external primitive library accepts
exactly the big-endian encodings of a nonzero scalar below the curve order. -/
def secpScalarOk (b : List Nat) : Bool :=
  decide (0 < natOfBEBase 256 b) && decide (natOfBEBase 256 b < SECP256K1_N)

/-- PKCS#8 parse of an RSA private key.  Modelled from the spec: the key is
identified with its DER bytes, DER decode inverts DER encode, and a DER
document begins with the ASN.1 SEQUENCE tag 0x30, so buffers whose first byte
differs are rejected with a data error. -/
def rsaFromPkcs8Der (b : List Nat) : Except ParseKeyError (List Nat) :=
  if b.headD 0 = 48 then .ok b else .error .invalidData

/-- Carrier set of the Rust `SecretKey` type: Ed25519 keeps 64 bytes of
keypair material, Secp256k1 a valid 32-byte scalar, RSA a PKCS#8 DER buffer
(bounded by the 2048-byte decode cap of `FromStr`). -/
def SecretKey.wf : SecretKey → Prop
  | .ed25519 d => d.length = 64 ∧ ∀ x ∈ d, x < 256
  | .secp256k1 d => d.length = 32 ∧ (∀ x ∈ d, x < 256) ∧ secpScalarOk d = true
  | .rsa d => d.headD 0 = 48 ∧ d.length ≤ 2048 ∧ ∀ x ∈ d, x < 256

instance (sk : SecretKey) : Decidable sk.wf := by
  cases sk <;> (unfold SecretKey.wf; infer_instance)

/-- `impl Display for SecretKey`: name, colon, base58 of the material (full
64-byte keypair for Ed25519, the 32-byte scalar for Secp256k1, the PKCS#8
DER bytes for RSA). -/
def SecretKey.display : SecretKey → List Char
  | .ed25519 d => KeyType.name .ed25519 ++ ':' :: encodeBs58 d
  | .secp256k1 d => KeyType.name .secp256k1 ++ ':' :: encodeBs58 d
  | .rsa d => KeyType.name .rsa2048 ++ ':' :: encodeBs58 d

/-- `impl FromStr for SecretKey`: fixed 64-byte decode for Ed25519; fixed
32-byte decode plus scalar validation for Secp256k1; capped variable-length
decode plus PKCS#8 parse for RSA. -/
def SecretKey.fromStr (s : List Char) : Except ParseKeyError SecretKey :=
  match split_key_type_data s with
  | .error (.unknownKeyType n) => .error (.unknownKeyType n)
  | .ok (.ed25519, d) =>
    match decode_bs58 64 d with
    | .ok bytes => .ok (.ed25519 bytes)
    | .error e => .error e.toParseKeyError
  | .ok (.secp256k1, d) =>
    match decode_bs58 32 d with
    | .ok bytes => if secpScalarOk bytes then .ok (.secp256k1 bytes) else .error .invalidData
    | .error e => .error e.toParseKeyError
  | .ok (.rsa2048, d) =>
    match parse_bs58_data 2048 d with
    | .ok buffer =>
      match rsaFromPkcs8Der buffer with
      | .ok k => .ok (.rsa k)
      | .error e => .error e
    | .error e => .error e.toParseKeyError

/-- Signature container: `Signature` of the source (Ed25519 64 bytes,
Secp256k1 compact-plus-recovery 65 bytes, Rsa2048 256 bytes). -/
inductive Signature where
  | ed25519 (data : List Nat)
  | secp256k1 (data : List Nat)
  | rsa (data : List Nat)
  deriving DecidableEq

/-- `Signature::key_type`. -/
def Signature.keyType : Signature → KeyType
  | .ed25519 _ => .ed25519
  | .secp256k1 _ => .secp256k1
  | .rsa _ => .rsa2048

/-- Stored bytes of a signature (`to_bytes` for the Ed25519 variant). -/
def Signature.sigData : Signature → List Nat
  | .ed25519 d => d
  | .secp256k1 d => d
  | .rsa d => d

/-- Fixed raw length of a signature per algorithm. -/
def signatureSize : KeyType → Nat
  | .ed25519 => 64
  | .secp256k1 => 65
  | .rsa2048 => 256

/-- Carrier set of the Rust `Signature` type. -/
def Signature.wf (sig : Signature) : Prop :=
  sig.sigData.length = signatureSize sig.keyType ∧ ∀ x ∈ sig.sigData, x < 256

instance (sig : Signature) : Decidable sig.wf := by
  unfold Signature.wf; infer_instance

/-- Signatures producible by `SecretKey::sign`.  Beyond membership in the
carrier set: the recovery byte written by `sign_ecdsa_recoverable` is at most
3, and — modelled from the spec, which calls the deserializer's top-bit test
a structural sanity check of the earlier signing library — an Ed25519
signature produced by the signing primitive carries a reduced scalar `s`, so
the top three bits of its final byte are clear. -/
def Signature.fromSigning (sig : Signature) : Prop :=
  sig.wf ∧
    match sig with
    | .ed25519 d => Nat.land (d.getD 63 0) 224 = 0
    | .secp256k1 d => d.getD 64 0 ≤ 3
    | .rsa _ => True

instance (sig : Signature) : Decidable sig.fromSigning := by
  cases sig <;> (unfold Signature.fromSigning; infer_instance)

/-- `Secp256K1Signature::check_signature_values`: the big-endian `r` and `s`
words must be below the curve order, with the half-plus-one bound on `s` when
`reject_upper` is set. -/
def check_signature_values (sig : List Nat) (rejectUpper : Bool) : Bool :=
  let r := natOfBEBase 256 (sig.take 32)
  let s := natOfBEBase 256 ((sig.drop 32).take 32)
  let sCheck := if rejectUpper then SECP256K1_N_HALF_ONE else SECP256K1_N
  decide (r < SECP256K1_N) && decide (s < sCheck)

/-- `impl Display for Signature`. -/
def Signature.display (sig : Signature) : List Char :=
  sig.keyType.name ++ ':' :: encodeBs58 sig.sigData

/-- `impl FromStr for Signature`: fixed-size base58 decode of the variant's
length; the Ed25519 branch applies `ed25519_dalek::Signature::from_bytes`,
which performs no structural validation. -/
def Signature.fromStr (s : List Char) : Except ParseSignatureError Signature :=
  match split_key_type_data s with
  | .error (.unknownKeyType n) => .error (.unknownKeyType n)
  | .ok (.ed25519, d) =>
    match decode_bs58 64 d with
    | .ok bytes => .ok (.ed25519 bytes)
    | .error e => .error e.toParseSignatureError
  | .ok (.secp256k1, d) =>
    match decode_bs58 65 d with
    | .ok bytes => .ok (.secp256k1 bytes)
    | .error e => .error e.toParseSignatureError
  | .ok (.rsa2048, d) =>
    match decode_bs58 256 d with
    | .ok bytes => .ok (.rsa bytes)
    | .error e => .error e.toParseSignatureError

/-- Borsh reader failures: a data-format error or running out of bytes. -/
inductive BorshError where
  | invalidData
  | eof
  deriving DecidableEq

/-- Fixed-size byte read of a borsh reader. -/
def readBytes (n : Nat) (l : List Nat) : Except BorshError (List Nat × List Nat) :=
  if n ≤ l.length then .ok (l.take n, l.drop n) else .error .eof

/-- `impl BorshSerialize for PublicKey`: tag byte then the raw bytes. -/
def borshSerializePublicKey (pk : PublicKey) : List Nat :=
  pk.keyType.tagByte :: pk.keyData

/-- `impl BorshDeserialize for PublicKey`: read the tag byte (unknown tags are
a data error) and the fixed-size payload of that variant. -/
def borshDeserializePublicKey (l : List Nat) : Except BorshError (PublicKey × List Nat) :=
  match l with
  | [] => .error .eof
  | b :: rest =>
    match KeyType.fromByte b with
    | .error _ => .error .invalidData
    | .ok .ed25519 =>
      match readBytes 32 rest with
      | .ok (a, r) => .ok (.ed25519 a, r)
      | .error e => .error e
    | .ok .secp256k1 =>
      match readBytes 64 rest with
      | .ok (a, r) => .ok (.secp256k1 a, r)
      | .error e => .error e
    | .ok .rsa2048 =>
      match readBytes 294 rest with
      | .ok (a, r) => .ok (.rsa a, r)
      | .error e => .error e

/-- `impl BorshSerialize for Signature`: tag byte then the raw bytes. -/
def borshSerializeSignature (sig : Signature) : List Nat :=
  sig.keyType.tagByte :: sig.sigData

/-- `impl BorshDeserialize for Signature`: read the tag byte and the
fixed-size payload; the Ed25519 branch rejects, with a data error, an array
whose last byte has any of its top three bits set. -/
def borshDeserializeSignature (l : List Nat) : Except BorshError (Signature × List Nat) :=
  match l with
  | [] => .error .eof
  | b :: rest =>
    match KeyType.fromByte b with
    | .error _ => .error .invalidData
    | .ok .ed25519 =>
      match readBytes 64 rest with
      | .ok (a, r) =>
        if Nat.land (a.getD 63 0) 224 ≠ 0 then .error .invalidData
        else .ok (.ed25519 a, r)
      | .error e => .error e
    | .ok .secp256k1 =>
      match readBytes 65 rest with
      | .ok (a, r) => .ok (.secp256k1 a, r)
      | .error e => .error e
    | .ok .rsa2048 =>
      match readBytes 256 rest with
      | .ok (a, r) => .ok (.rsa a, r)
      | .error e => .error e

/-- External cryptographic primitives used by `verify` and `recover`,
abstracted as boolean/optional oracles: these live in the ed25519-dalek,
secp256k1 and rsa crates, which the spec treats as trusted black boxes.
Only their success/failure shape matters for the claims; none of them can
panic. -/
structure CryptoPrims where
  edPkOk : List Nat → Bool
  edVerify : List Nat → List Nat → List Nat → Bool
  secpFromCompactOk : List Nat → Nat → Bool
  secpPkParseOk : List Nat → Bool
  secpVerifyEcdsa : List Nat → List Nat → List Nat → Bool
  recoverEcdsa : List Nat → Nat → List Nat → Option (List Nat)
  rsaVerify : List Nat → List Nat → List Nat → Bool

/-- Success test of `rsa::RsaPublicKey::from_public_key_der`.  Modelled from
the spec: the public key is stored as a DER `SubjectPublicKeyInfo`, and any
DER document begins with the ASN.1 SEQUENCE tag 0x30, so a buffer whose first
byte differs (in particular an all-zero buffer) is rejected.  Only the
rejection of such buffers is relied upon. -/
def rsaSpkiDecodeOk (k : List Nat) : Bool :=
  decide (k.headD 0 = 48)

/-- `Signature::verify`.  `none` marks a panic of the Rust code: the RSA
branch unwraps the DER decoding of the public key, so a malformed stored DER
buffer aborts instead of returning `false`.  All other branches convert
failures to `false`: mismatched recovery byte (`RecoveryId::from_i32` accepts
only 0..=3), compact-signature rebuild, digest length (`Message::from_slice`
needs exactly 32 bytes), and point parse of the `04`-prefixed key. -/
def Signature.verify (P : CryptoPrims) (sig : Signature) (data : List Nat)
    (pk : PublicKey) : Option Bool :=
  match sig, pk with
  | .ed25519 s, .ed25519 k =>
    if P.edPkOk k then some (P.edVerify k data s) else some false
  | .secp256k1 s, .secp256k1 k =>
    if 3 < s.getD 64 0 then some false
    else if ¬ P.secpFromCompactOk (s.take 64) (s.getD 64 0) then some false
    else if data.length ≠ 32 then some false
    else if ¬ P.secpPkParseOk (4 :: k) then some false
    else some (P.secpVerifyEcdsa data (s.take 64) (4 :: k))
  | .rsa s, .rsa k =>
    if rsaSpkiDecodeOk k then some (P.rsaVerify k data s) else none
  | _, _ => some false

/-- `Secp256K1Signature::recover`.  `none` marks a panic of the Rust code:
the recovery byte is fed to `RecoveryId::from_i32(...).unwrap()`, so a byte
above 3 aborts; a compact-rebuild or recovery failure becomes an
`InvalidData` error; on success the uncompressed point minus its marker byte
is returned (the final 64-byte conversion unwrap succeeds exactly when the
recovered serialization has 65 bytes). -/
def secp256K1SignatureRecover (P : CryptoPrims) (sig : List Nat) (msg : List Nat) :
    Option (Except ParseSignatureError (List Nat)) :=
  if 3 < sig.getD 64 0 then none
  else if ¬ P.secpFromCompactOk (sig.take 64) (sig.getD 64 0) then some (.error .invalidData)
  else
    match P.recoverEcdsa (sig.take 64) (sig.getD 64 0) msg with
    | none => some (.error .invalidData)
    | some res =>
      if ((res.drop 1).take 64).length = 64 then some (.ok ((res.drop 1).take 64))
      else none

/-- Valid base58 text: every character is in the alphabet. -/
def b58Valid (s : List Char) : Prop := ∀ c ∈ s, (b58Digit c).isSome

instance (s : List Char) : Decidable (b58Valid s) := by
  unfold b58Valid; infer_instance

/-- Secp256k1 signature whose big-endian `r` word is zero and whose `s` word
equals half the curve order plus one (the smallest integer above half the
order), with recovery byte zero. -/
def c6SigBytes : List Nat :=
  List.replicate 32 0 ++
    [0x7f, 0xff, 0xff, 0xff, 0xff, 0xff, 0xff, 0xff,
     0xff, 0xff, 0xff, 0xff, 0xff, 0xff, 0xff, 0xff,
     0x5d, 0x57, 0x6e, 0x73, 0x57, 0xa4, 0x50, 0x1d,
     0xdf, 0xe9, 0x2f, 0x46, 0x68, 0x1b, 0x20, 0xa1] ++ [0]

theorem natDigitsAux_eq_digits (b : Nat) (hb : 2 ≤ b) :
    ∀ (fuel n : Nat), n < b ^ fuel → natDigitsAux b fuel n = Nat.digits b n := by
  intro fuel
  induction fuel with
  | zero =>
    intro n hn
    simp only [pow_zero, Nat.lt_one_iff] at hn
    subst hn
    simp [natDigitsAux]
  | succ fuel ih =>
    intro n hn
    by_cases h0 : n = 0
    · subst h0
      simp [natDigitsAux]
    · rw [natDigitsAux, if_neg h0,
        Nat.digits_def' (by omega : 1 < b) (Nat.pos_of_ne_zero h0), ih]
      rw [Nat.div_lt_iff_lt_mul (by omega : 0 < b)]
      calc n < b ^ (fuel + 1) := hn
        _ = b ^ fuel * b := by rw [pow_succ]

theorem foldl_mulAdd_eq_ofDigits (B : Nat) :
    ∀ (l : List Nat) (a : Nat),
      l.foldl (fun x d => x * B + d) a = a * B ^ l.length + Nat.ofDigits B l.reverse := by
  intro l
  induction l with
  | nil => intro a; simp [Nat.ofDigits]
  | cons x xs ih =>
    intro a
    rw [List.foldl_cons, ih, List.reverse_cons, Nat.ofDigits_append]
    simp only [List.length_cons, List.length_reverse, Nat.ofDigits_singleton]
    ring

theorem natOfBEBase_eq_ofDigits (B : Nat) (l : List Nat) :
    natOfBEBase B l = Nat.ofDigits B l.reverse := by
  unfold natOfBEBase
  rw [foldl_mulAdd_eq_ofDigits]
  simp

theorem natOfBEBase_lt (B : Nat) (l : List Nat) (hB : 1 < B) (h : ∀ x ∈ l, x < B) :
    natOfBEBase B l < B ^ l.length := by
  rw [natOfBEBase_eq_ofDigits]
  have := Nat.ofDigits_lt_base_pow_length (l := l.reverse) hB (by
    intro x hx; exact h x (List.mem_reverse.mp hx))
  simpa using this

theorem digitsLen_le_of_lt {b m k : Nat} (hb : 1 < b) (h : m < b ^ k) :
    (Nat.digits b m).length ≤ k := by
  by_cases h0 : m = 0
  · subst h0; simp
  · by_contra hlen
    push_neg at hlen
    have h1 : b ^ (Nat.digits b m).length ≤ b * m := Nat.base_pow_length_digits_le b m hb h0
    have h2 : b ^ (k + 1) ≤ b ^ (Nat.digits b m).length := Nat.pow_le_pow_right (by omega) hlen
    rw [pow_succ'] at h2
    have h3 : b * b ^ k ≤ b * m := le_trans h2 h1
    have h4 : b ^ k ≤ m := Nat.le_of_mul_le_mul_left h3 (by omega)
    omega

theorem b58Digit_b58Char : ∀ d < 58, b58Digit (b58Char d) = some d := by decide

theorem b58Digit_one : b58Digit '1' = some 0 := by decide

theorem b58Char_ne_one : ∀ d < 58, d ≠ 0 → b58Char d ≠ '1' := by decide

theorem b58DigitAux_lt (c : Char) :
    ∀ (l : List Char) (i d : Nat), b58DigitAux c l i = some d → d < i + l.length := by
  intro l
  induction l with
  | nil => intro i d h; simp [b58DigitAux] at h
  | cons a as ih =>
    intro i d h
    rw [b58DigitAux] at h
    by_cases ha : a = c
    · rw [if_pos ha] at h
      simp only [Option.some.injEq] at h
      subst h
      simp
    · rw [if_neg ha] at h
      have := ih (i + 1) d h
      simp only [List.length_cons]
      omega

theorem b58Digit_lt (c : Char) (d : Nat) (h : b58Digit c = some d) : d < 58 := by
  have := b58DigitAux_lt c b58Alphabet 0 d h
  simpa using this

theorem b58ValueAcc_nil (acc : Nat) : b58ValueAcc acc [] = acc := rfl

theorem b58ValueAcc_cons (acc : Nat) (c : Char) (cs : List Char) :
    b58ValueAcc acc (c :: cs) = b58ValueAcc (acc * 58 + (b58Digit c).getD 0) cs := rfl

theorem le_b58ValueAcc : ∀ (s : List Char) (acc : Nat), acc ≤ b58ValueAcc acc s := by
  intro s
  induction s with
  | nil => intro acc; simp [b58ValueAcc_nil]
  | cons c cs ih =>
    intro acc
    rw [b58ValueAcc_cons]
    calc acc ≤ acc * 58 + (b58Digit c).getD 0 := by nlinarith
      _ ≤ b58ValueAcc (acc * 58 + (b58Digit c).getD 0) cs := ih _

theorem b58Fold_ok (n : Nat) :
    ∀ (s : List Char) (acc : Nat), b58Valid s → b58ValueAcc acc s < 256 ^ n →
      b58Fold n acc s = .ok (b58ValueAcc acc s) := by
  intro s
  induction s with
  | nil => intro acc _ _; rfl
  | cons c cs ih =>
    intro acc hv hlt
    obtain ⟨d, hd⟩ := Option.isSome_iff_exists.mp (hv c (List.mem_cons_self c cs))
    rw [b58ValueAcc_cons, hd] at hlt ⊢
    simp only [Option.getD_some] at hlt ⊢
    simp only [b58Fold, hd]
    have hle : acc * 58 + d ≤ b58ValueAcc (acc * 58 + d) cs := le_b58ValueAcc cs _
    rw [if_neg (by omega)]
    exact ih _ (fun x hx => hv x (List.mem_cons_of_mem c hx)) hlt

theorem b58Fold_ok_inv (n : Nat) :
    ∀ (s : List Char) (acc v : Nat), b58Fold n acc s = .ok v →
      b58Valid s ∧ v = b58ValueAcc acc s := by
  intro s
  induction s with
  | nil =>
    intro acc v h
    simp only [b58Fold, Except.ok.injEq] at h
    exact ⟨by intro c hc; simp at hc, h.symm⟩
  | cons c cs ih =>
    intro acc v h
    simp only [b58Fold] at h
    cases hd : b58Digit c with
    | none => rw [hd] at h; exact absurd h (by simp)
    | some d =>
      rw [hd] at h
      simp only at h
      by_cases hov : 256 ^ n ≤ acc * 58 + d
      · rw [if_pos hov] at h; exact absurd h (by simp)
      · rw [if_neg hov] at h
        obtain ⟨hvcs, hval⟩ := ih _ _ h
        refine ⟨?_, ?_⟩
        · intro x hx
          rcases List.mem_cons.mp hx with rfl | hx
          · simp [hd]
          · exact hvcs x hx
        · rw [b58ValueAcc_cons, hd, Option.getD_some]
          exact hval

theorem b58Fold_overflow (n : Nat) :
    ∀ (s : List Char) (acc : Nat), b58Valid s → acc < 256 ^ n →
      256 ^ n ≤ b58ValueAcc acc s → b58Fold n acc s = .error .bufferTooSmall := by
  intro s
  induction s with
  | nil =>
    intro acc _ hacc hge
    rw [b58ValueAcc_nil] at hge
    omega
  | cons c cs ih =>
    intro acc hv hacc hge
    obtain ⟨d, hd⟩ := Option.isSome_iff_exists.mp (hv c (List.mem_cons_self c cs))
    rw [b58ValueAcc_cons, hd, Option.getD_some] at hge
    simp only [b58Fold, hd]
    by_cases hov : 256 ^ n ≤ acc * 58 + d
    · rw [if_pos hov]
    · rw [if_neg hov]
      exact ih _ (fun x hx => hv x (List.mem_cons_of_mem c hx)) (by omega) hge

theorem b58Fold_badChar (n : Nat) :
    ∀ (s : List Char) (acc : Nat), ¬ b58Valid s →
      b58ValueAcc acc (s.takeWhile (fun c => (b58Digit c).isSome)) < 256 ^ n →
      b58Fold n acc s = .error .badChar := by
  intro s
  induction s with
  | nil => intro acc hnv _; exact absurd (by intro c hc; simp at hc) hnv
  | cons c cs ih =>
    intro acc hnv hpre
    cases hd : b58Digit c with
    | none => simp only [b58Fold, hd]
    | some d =>
      simp only [List.takeWhile_cons, hd, Option.isSome_some, if_true] at hpre
      rw [b58ValueAcc_cons, hd, Option.getD_some] at hpre
      simp only [b58Fold, hd]
      have hle : acc * 58 + d ≤
          b58ValueAcc (acc * 58 + d) (cs.takeWhile (fun c => (b58Digit c).isSome)) :=
        le_b58ValueAcc _ _
      rw [if_neg (by omega)]
      refine ih _ ?_ hpre
      intro hvcs
      exact hnv (by
        intro x hx
        rcases List.mem_cons.mp hx with rfl | hx
        · simp [hd]
        · exact hvcs x hx)

theorem b58Fold_badChar_overflow (n : Nat) :
    ∀ (s : List Char) (acc : Nat), ¬ b58Valid s → acc < 256 ^ n →
      256 ^ n ≤ b58ValueAcc acc (s.takeWhile (fun c => (b58Digit c).isSome)) →
      b58Fold n acc s = .error .bufferTooSmall := by
  intro s
  induction s with
  | nil => intro acc hnv _ _; exact absurd (by intro c hc; simp at hc) hnv
  | cons c cs ih =>
    intro acc hnv hacc hpre
    cases hd : b58Digit c with
    | none =>
      simp only [List.takeWhile_cons, hd, Option.isSome_none, Bool.false_eq_true,
        if_false, b58ValueAcc_nil] at hpre
      omega
    | some d =>
      simp only [List.takeWhile_cons, hd, Option.isSome_some, if_true] at hpre
      rw [b58ValueAcc_cons, hd, Option.getD_some] at hpre
      simp only [b58Fold, hd]
      by_cases hov : 256 ^ n ≤ acc * 58 + d
      · rw [if_pos hov]
      · rw [if_neg hov]
        refine ih _ ?_ (by omega) hpre
        intro hvcs
        exact hnv (by
          intro x hx
          rcases List.mem_cons.mp hx with rfl | hx
          · simp [hd]
          · exact hvcs x hx)

theorem b58ValueAcc_lt (s : List Char) : b58ValueAcc 0 s < 58 ^ s.length := by
  have hmap : b58ValueAcc 0 s = natOfBEBase 58 (s.map (fun c => (b58Digit c).getD 0)) := by
    unfold b58ValueAcc natOfBEBase
    rw [List.foldl_map]
  rw [hmap]
  have := natOfBEBase_lt 58 (s.map (fun c => (b58Digit c).getD 0)) (by omega) (by
    intro x hx
    obtain ⟨c, _, rfl⟩ := List.mem_map.mp hx
    cases hd : b58Digit c with
    | none => simp
    | some d => simpa [hd] using b58Digit_lt c d hd)
  simpa using this

theorem bs58Decoded_digits (s : List Char) :
    bs58Decoded s =
      List.replicate (leadOnes s) 0 ++ (Nat.digits 256 (b58ValueAcc 0 s)).reverse := by
  unfold bs58Decoded
  congr 2
  apply natDigitsAux_eq_digits 256 (by omega)
  calc b58ValueAcc 0 s < 58 ^ s.length := b58ValueAcc_lt s
    _ ≤ 256 ^ s.length := Nat.pow_le_pow_left (by omega) _
    _ < 256 ^ (s.length + 1) := Nat.pow_lt_pow_right (by omega) (by omega)

theorem bs58Decoded_length (s : List Char) :
    (bs58Decoded s).length = leadOnes s + (Nat.digits 256 (b58ValueAcc 0 s)).length := by
  rw [bs58Decoded_digits]
  simp

theorem bs58DecodeIntoBuf_ok (n : Nat) (s : List Char) (hv : b58Valid s)
    (hle : (bs58Decoded s).length ≤ n) :
    bs58DecodeIntoBuf n s = .ok (bs58Decoded s) := by
  have hlen := bs58Decoded_length s
  have hvlt : b58ValueAcc 0 s < 256 ^ n :=
    calc b58ValueAcc 0 s < 256 ^ (Nat.digits 256 (b58ValueAcc 0 s)).length :=
          Nat.lt_base_pow_length_digits (by omega)
      _ ≤ 256 ^ n := Nat.pow_le_pow_right (by omega) (by omega)
  unfold bs58DecodeIntoBuf
  rw [b58Fold_ok n s 0 hv hvlt]
  simp only
  rw [if_neg (by
    show ¬ n < (List.replicate (leadOnes s) 0 ++
      (natDigitsAux 256 (s.length + 1) (b58ValueAcc 0 s)).reverse).length
    show ¬ n < (bs58Decoded s).length
    omega)]
  rfl

theorem bs58DecodeIntoBuf_tooSmall (n : Nat) (s : List Char) (hv : b58Valid s)
    (hgt : n < (bs58Decoded s).length) :
    bs58DecodeIntoBuf n s = .error .bufferTooSmall := by
  by_cases hvlt : b58ValueAcc 0 s < 256 ^ n
  · unfold bs58DecodeIntoBuf
    rw [b58Fold_ok n s 0 hv hvlt]
    simp only
    rw [if_pos (by
      show n < (List.replicate (leadOnes s) 0 ++
        (natDigitsAux 256 (s.length + 1) (b58ValueAcc 0 s)).reverse).length
      show n < (bs58Decoded s).length
      omega)]
  · unfold bs58DecodeIntoBuf
    rw [b58Fold_overflow n s 0 hv (Nat.pos_pow_of_pos n (by omega)) (by omega)]

theorem bs58DecodeIntoBuf_badChar (n : Nat) (s : List Char) (hnv : ¬ b58Valid s)
    (hpre : b58ValueAcc 0 (s.takeWhile (fun c => (b58Digit c).isSome)) < 256 ^ n) :
    bs58DecodeIntoBuf n s = .error .badChar := by
  unfold bs58DecodeIntoBuf
  rw [b58Fold_badChar n s 0 hnv hpre]

theorem bs58DecodeIntoBuf_badChar_overflow (n : Nat) (s : List Char) (hnv : ¬ b58Valid s)
    (hpre : 256 ^ n ≤ b58ValueAcc 0 (s.takeWhile (fun c => (b58Digit c).isSome))) :
    bs58DecodeIntoBuf n s = .error .bufferTooSmall := by
  unfold bs58DecodeIntoBuf
  rw [b58Fold_badChar_overflow n s 0 hnv (Nat.pos_pow_of_pos n (by omega)) hpre]

theorem bs58DecodeIntoBuf_ok_inv (n : Nat) (s : List Char) (bytes : List Nat)
    (h : bs58DecodeIntoBuf n s = .ok bytes) :
    b58Valid s ∧ bytes = bs58Decoded s ∧ (bs58Decoded s).length ≤ n := by
  unfold bs58DecodeIntoBuf at h
  cases hf : b58Fold n 0 s with
  | error e => rw [hf] at h; exact absurd h (by simp)
  | ok v =>
    rw [hf] at h
    simp only at h
    obtain ⟨hv, hval⟩ := b58Fold_ok_inv n s 0 v hf
    subst hval
    by_cases hc : n < (List.replicate (leadOnes s) 0 ++
        (natDigitsAux 256 (s.length + 1) (b58ValueAcc 0 s)).reverse).length
    · rw [if_pos hc] at h; exact absurd h (by simp)
    · rw [if_neg hc] at h
      simp only [Except.ok.injEq] at h
      refine ⟨hv, h.symm, ?_⟩
      have hc' : ¬ n < (bs58Decoded s).length := hc
      omega

theorem countLead_nil {α : Type} (p : α → Bool) : countLead p [] = 0 := rfl

theorem countLead_cons_neg {α : Type} (p : α → Bool) (x : α) (xs : List α)
    (hx : p x = false) : countLead p (x :: xs) = 0 := by
  simp [countLead, hx]

theorem countLead_beq_decomp {α : Type} [BEq α] [LawfulBEq α] (a : α) :
    ∀ l : List α,
      l = List.replicate (countLead (· == a) l) a ++ l.drop (countLead (· == a) l) := by
  intro l
  induction l with
  | nil => rfl
  | cons x xs ih =>
    by_cases hx : (x == a) = true
    · have hxa : x = a := eq_of_beq hx
      simp only [countLead, hx, if_true, List.replicate_succ, List.cons_append,
        List.drop_succ_cons]
      rw [hxa]
      exact congrArg (a :: ·) ih
    · have hx' : (x == a) = false := by simpa using hx
      simp [countLead, hx']

theorem countLead_beq_drop {α : Type} [BEq α] [LawfulBEq α] (a : α) :
    ∀ l : List α,
      l.drop (countLead (· == a) l) = [] ∨
        ∃ y ys, l.drop (countLead (· == a) l) = y :: ys ∧ y ≠ a := by
  intro l
  induction l with
  | nil => left; rfl
  | cons x xs ih =>
    by_cases hx : (x == a) = true
    · simp only [countLead, hx, if_true, List.drop_succ_cons]
      exact ih
    · have hx' : (x == a) = false := by simpa using hx
      right
      refine ⟨x, xs, ?_, ?_⟩
      · simp [countLead, hx']
      · intro hxa
        rw [hxa] at hx
        simp at hx

theorem countLead_replicate_append {α : Type} (p : α → Bool) (a : α) (t : List α)
    (hpa : p a = true) :
    ∀ z, countLead p (List.replicate z a ++ t) = z + countLead p t := by
  intro z
  induction z with
  | zero => simp
  | succ z ih =>
    rw [List.replicate_succ, List.cons_append]
    simp only [countLead, hpa, if_true, ih]
    omega

theorem foldl_mulAdd_replicate_zero (B : Nat) :
    ∀ z, List.foldl (fun a d => a * B + d) 0 (List.replicate z 0) = 0 := by
  intro z
  induction z with
  | zero => rfl
  | succ z ih => rw [List.replicate_succ]; simpa using ih

theorem natOfBEBase_replicate_zero_append (B : Nat) (z : Nat) (rest : List Nat) :
    natOfBEBase B (List.replicate z 0 ++ rest) = natOfBEBase B rest := by
  unfold natOfBEBase
  rw [List.foldl_append, foldl_mulAdd_replicate_zero]

theorem b58ValueAcc_replicate_one_append (z : Nat) (t : List Char) :
    b58ValueAcc 0 (List.replicate z '1' ++ t) = b58ValueAcc 0 t := by
  unfold b58ValueAcc
  rw [List.foldl_append]
  have : ∀ z, List.foldl (fun a c => a * 58 + (b58Digit c).getD 0) 0
      (List.replicate z '1') = 0 := by
    intro z
    induction z with
    | zero => rfl
    | succ z ih => rw [List.replicate_succ]; simpa [b58Digit_one] using ih
  rw [this]

theorem digits_natOfBEBase_cons (y : Nat) (ys : List Nat) (hy : y ≠ 0)
    (hlt : ∀ x ∈ y :: ys, x < 256) :
    Nat.digits 256 (natOfBEBase 256 (y :: ys)) = (y :: ys).reverse := by
  rw [natOfBEBase_eq_ofDigits]
  apply Nat.digits_ofDigits 256 (by omega)
  · intro x hx
    exact hlt x (List.mem_reverse.mp hx)
  · intro h
    rw [List.getLast_reverse]
    simpa using hy

theorem encodeBs58_digits (b : List Nat) (hb : ∀ x ∈ b, x < 256) :
    encodeBs58 b = List.replicate (countLead (· == 0) b) '1' ++
      (Nat.digits 58 (natOfBEBase 256 b)).reverse.map b58Char := by
  unfold encodeBs58
  congr 3
  apply natDigitsAux_eq_digits 58 (by omega)
  calc natOfBEBase 256 b < 256 ^ b.length := natOfBEBase_lt 256 b (by omega) hb
    _ ≤ (58 ^ 2) ^ b.length := Nat.pow_le_pow_left (by omega) _
    _ = 58 ^ (2 * b.length) := by rw [← pow_mul]
    _ < 58 ^ (2 * b.length + 1) := Nat.pow_lt_pow_right (by omega) (by omega)

theorem encodeBs58_valid (b : List Nat) (hb : ∀ x ∈ b, x < 256) :
    b58Valid (encodeBs58 b) := by
  rw [encodeBs58_digits b hb]
  intro c hc
  rcases List.mem_append.mp hc with h1 | h1
  · rw [List.eq_of_mem_replicate h1, b58Digit_one]
    simp
  · obtain ⟨d, hd, rfl⟩ := List.mem_map.mp h1
    have hd58 : d < 58 := Nat.digits_lt_base (by omega) (List.mem_reverse.mp hd)
    rw [b58Digit_b58Char d hd58]
    simp

theorem leadOnes_encodeBs58 (b : List Nat) (hb : ∀ x ∈ b, x < 256) :
    leadOnes (encodeBs58 b) = countLead (· == 0) b := by
  rw [encodeBs58_digits b hb]
  unfold leadOnes
  rw [countLead_replicate_append _ _ _ (by rfl)]
  by_cases hv : natOfBEBase 256 b = 0
  · rw [hv]
    simp [countLead_nil]
  · have hne : (Nat.digits 58 (natOfBEBase 256 b)).reverse ≠ [] := by
      simpa using Nat.digits_ne_nil_iff_ne_zero.mpr hv
    obtain ⟨d0, rest, hcons⟩ := List.exists_cons_of_ne_nil hne
    rw [hcons, List.map_cons]
    have hdig : Nat.digits 58 (natOfBEBase 256 b) = rest.reverse ++ [d0] := by
      have := congrArg List.reverse hcons
      simpa using this
    have hd0q : (Nat.digits 58 (natOfBEBase 256 b)).getLast? = some d0 := by
      rw [hdig]
      exact List.getLast?_concat rest.reverse
    have hd0g := List.getLast?_eq_getLast (Nat.digits 58 (natOfBEBase 256 b))
      (Nat.digits_ne_nil_iff_ne_zero.mpr hv)
    have hd0 : d0 = (Nat.digits 58 (natOfBEBase 256 b)).getLast
        (Nat.digits_ne_nil_iff_ne_zero.mpr hv) := by
      rw [hd0g] at hd0q
      exact (Option.some.injEq _ _ ▸ hd0q).symm
    have hd0ne : d0 ≠ 0 := by
      rw [hd0]
      exact Nat.getLast_digit_ne_zero 58 hv
    have hd058 : d0 < 58 := by
      apply Nat.digits_lt_base (by omega)
      have : d0 ∈ (Nat.digits 58 (natOfBEBase 256 b)).reverse := by
        rw [hcons]; exact List.mem_cons_self _ _
      exact List.mem_reverse.mp this
    rw [countLead_cons_neg]
    · omega
    · have := b58Char_ne_one d0 hd058 hd0ne
      simpa using this

theorem b58ValueAcc_map_b58Char (ds : List Nat) (hds : ∀ d ∈ ds, d < 58) :
    b58ValueAcc 0 (ds.map b58Char) = natOfBEBase 58 ds := by
  unfold b58ValueAcc natOfBEBase
  rw [List.foldl_map]
  apply List.foldl_ext
  intro a d hd
  rw [b58Digit_b58Char d (hds d hd)]
  rfl

theorem b58ValueAcc_encodeBs58 (b : List Nat) (hb : ∀ x ∈ b, x < 256) :
    b58ValueAcc 0 (encodeBs58 b) = natOfBEBase 256 b := by
  rw [encodeBs58_digits b hb, b58ValueAcc_replicate_one_append,
    b58ValueAcc_map_b58Char _ (by
      intro d hd
      exact Nat.digits_lt_base (by omega) (List.mem_reverse.mp hd)),
    natOfBEBase_eq_ofDigits]
  rw [List.reverse_reverse, Nat.ofDigits_digits]

theorem bs58Decoded_encodeBs58 (b : List Nat) (hb : ∀ x ∈ b, x < 256) :
    bs58Decoded (encodeBs58 b) = b := by
  rw [bs58Decoded_digits, leadOnes_encodeBs58 b hb, b58ValueAcc_encodeBs58 b hb]
  have hdec := countLead_beq_decomp 0 b
  rcases countLead_beq_drop 0 b with hnil | ⟨y, ys, hys, hyne⟩
  · have hb0 : b = List.replicate (countLead (· == 0) b) 0 := by
      conv_lhs => rw [hdec]
      rw [hnil, List.append_nil]
    have hv0 : natOfBEBase 256 b = 0 := by
      conv_lhs => rw [hb0]
      exact foldl_mulAdd_replicate_zero 256 _
    rw [hv0]
    simp only [Nat.digits_zero, List.reverse_nil, List.append_nil]
    exact hb0.symm
  · have hrest : ∀ x ∈ y :: ys, x < 256 := by
      intro x hx
      exact hb x (List.mem_of_mem_drop (hys ▸ hx))
    have hv : natOfBEBase 256 b = natOfBEBase 256 (y :: ys) := by
      conv_lhs => rw [hdec]
      rw [hys, natOfBEBase_replicate_zero_append]
    rw [hv, digits_natOfBEBase_cons y ys hyne hrest, List.reverse_reverse]
    conv_rhs => rw [hdec]
    rw [hys]

theorem encodeBs58_length_ge (b : List Nat) (hb : ∀ x ∈ b, x < 256) :
    b.length ≤ (encodeBs58 b).length := by
  rw [encodeBs58_digits b hb]
  simp only [List.length_append, List.length_replicate, List.length_map,
    List.length_reverse]
  have hdec := countLead_beq_decomp 0 b
  have hlen : b.length = countLead (· == 0) b + (b.drop (countLead (· == 0) b)).length := by
    conv_lhs => rw [hdec]
    simp
  have hd2 : (b.drop (countLead (· == 0) b)).length ≤
      (Nat.digits 58 (natOfBEBase 256 b)).length := by
    rcases countLead_beq_drop 0 b with hnil | ⟨y, ys, hys, hyne⟩
    · rw [hnil]
      simp
    · have hrest : ∀ x ∈ y :: ys, x < 256 := by
        intro x hx
        exact hb x (List.mem_of_mem_drop (hys ▸ hx))
      have hv : natOfBEBase 256 b = natOfBEBase 256 (y :: ys) := by
        conv_lhs => rw [hdec]
        rw [hys, natOfBEBase_replicate_zero_append]
      have h256 : (Nat.digits 256 (natOfBEBase 256 b)).length =
          (b.drop (countLead (· == 0) b)).length := by
        rw [hv, digits_natOfBEBase_cons y ys hyne hrest, hys]
        simp
      have hle : (Nat.digits 256 (natOfBEBase 256 b)).length ≤
          (Nat.digits 58 (natOfBEBase 256 b)).length := by
        apply digitsLen_le_of_lt (by omega)
        calc natOfBEBase 256 b
            < 58 ^ (Nat.digits 58 (natOfBEBase 256 b)).length :=
              Nat.lt_base_pow_length_digits (by omega)
          _ ≤ 256 ^ (Nat.digits 58 (natOfBEBase 256 b)).length :=
              Nat.pow_le_pow_left (by omega) _
      omega
  omega

theorem decode_bs58_encodeBs58 (b : List Nat) (hb : ∀ x ∈ b, x < 256) :
    decode_bs58 b.length (encodeBs58 b) = .ok b := by
  have hdlen : (bs58Decoded (encodeBs58 b)).length = b.length := by
    rw [bs58Decoded_encodeBs58 b hb]
  unfold decode_bs58
  rw [bs58DecodeIntoBuf_ok b.length (encodeBs58 b) (encodeBs58_valid b hb) (by omega)]
  rw [bs58Decoded_encodeBs58 b hb]
  simp

theorem parse_bs58_data_encodeBs58 (b : List Nat) (m : Nat) (hb : ∀ x ∈ b, x < 256)
    (hm : b.length ≤ m) :
    parse_bs58_data m (encodeBs58 b) = .ok b := by
  have hdlen : (bs58Decoded (encodeBs58 b)).length = b.length := by
    rw [bs58Decoded_encodeBs58 b hb]
  have hmin : b.length ≤ min m (encodeBs58 b).length := by
    have := encodeBs58_length_ge b hb
    omega
  simp only [parse_bs58_data]
  rw [bs58DecodeIntoBuf_ok _ (encodeBs58 b) (encodeBs58_valid b hb) (by omega)]
  rw [bs58Decoded_encodeBs58 b hb]

theorem splitColon_append (name rest : List Char) (hnc : ':' ∉ name) :
    splitColon (name ++ ':' :: rest) = some (name, rest) := by
  induction name with
  | nil => simp [splitColon]
  | cons c cs ih =>
    have hc : c ≠ ':' := fun h => hnc (h ▸ List.mem_cons_self c cs)
    rw [List.cons_append, splitColon, if_neg hc,
      ih (fun h => hnc (List.mem_cons_of_mem c h))]

theorem splitColon_none (s : List Char) (hnc : ':' ∉ s) : splitColon s = none := by
  induction s with
  | nil => rfl
  | cons c cs ih =>
    have hc : c ≠ ':' := fun h => hnc (h ▸ List.mem_cons_self c cs)
    rw [splitColon, if_neg hc, ih (fun h => hnc (List.mem_cons_of_mem c h))]

theorem keyType_fromChars_name : ∀ t : KeyType, KeyType.fromChars (KeyType.name t) = .ok t := by
  intro t
  cases t <;> rfl

theorem keyType_name_no_colon : ∀ t : KeyType, ':' ∉ KeyType.name t := by
  intro t
  cases t <;> decide

theorem split_key_type_data_display (t : KeyType) (rest : List Char) :
    split_key_type_data (KeyType.name t ++ ':' :: rest) = .ok (t, rest) := by
  simp [split_key_type_data, splitColon_append _ _ (keyType_name_no_colon t),
    keyType_fromChars_name t]

theorem split_key_type_data_no_colon (s : List Char) (hnc : ':' ∉ s) :
    split_key_type_data s = .ok (.ed25519, s) := by
  rw [split_key_type_data, splitColon_none s hnc]

theorem publicKey_fromStr_display (pk : PublicKey) (hwf : pk.wf) :
    PublicKey.fromStr pk.display = .ok pk := by
  obtain ⟨hlen, hbytes⟩ := hwf
  cases pk with
  | ed25519 d =>
    simp only [PublicKey.keyData, PublicKey.keyType, publicKeySize] at hlen hbytes
    have hdec : decode_bs58 32 (encodeBs58 d) = .ok d := hlen ▸ decode_bs58_encodeBs58 d hbytes
    simp [PublicKey.display, PublicKey.fromStr, PublicKey.keyType, PublicKey.keyData,
      split_key_type_data_display, hdec]
  | secp256k1 d =>
    simp only [PublicKey.keyData, PublicKey.keyType, publicKeySize] at hlen hbytes
    have hdec : decode_bs58 64 (encodeBs58 d) = .ok d := hlen ▸ decode_bs58_encodeBs58 d hbytes
    simp [PublicKey.display, PublicKey.fromStr, PublicKey.keyType, PublicKey.keyData,
      split_key_type_data_display, hdec]
  | rsa d =>
    simp only [PublicKey.keyData, PublicKey.keyType, publicKeySize] at hlen hbytes
    have hdec : decode_bs58 294 (encodeBs58 d) = .ok d := hlen ▸ decode_bs58_encodeBs58 d hbytes
    simp [PublicKey.display, PublicKey.fromStr, PublicKey.keyType, PublicKey.keyData,
      split_key_type_data_display, hdec]

theorem secretKey_fromStr_display (sk : SecretKey) (hwf : sk.wf) :
    SecretKey.fromStr sk.display = .ok sk := by
  cases sk with
  | ed25519 d =>
    obtain ⟨hlen, hbytes⟩ := hwf
    have hdec : decode_bs58 64 (encodeBs58 d) = .ok d := hlen ▸ decode_bs58_encodeBs58 d hbytes
    simp [SecretKey.display, SecretKey.fromStr, split_key_type_data_display, hdec]
  | secp256k1 d =>
    obtain ⟨hlen, hbytes, hscalar⟩ := hwf
    have hdec : decode_bs58 32 (encodeBs58 d) = .ok d := hlen ▸ decode_bs58_encodeBs58 d hbytes
    simp [SecretKey.display, SecretKey.fromStr, split_key_type_data_display, hdec, hscalar]
  | rsa d =>
    obtain ⟨hhead, hlen, hbytes⟩ := hwf
    have hdec : parse_bs58_data 2048 (encodeBs58 d) = .ok d :=
      parse_bs58_data_encodeBs58 d 2048 hbytes hlen
    have hhead2 : d.head?.getD 0 = 48 := by
      rw [← List.headD_eq_head?_getD]
      exact hhead
    simp [SecretKey.display, SecretKey.fromStr, split_key_type_data_display, hdec,
      rsaFromPkcs8Der, hhead2]

theorem signature_fromStr_display (sig : Signature) (hwf : sig.wf) :
    Signature.fromStr sig.display = .ok sig := by
  obtain ⟨hlen, hbytes⟩ := hwf
  cases sig with
  | ed25519 d =>
    simp only [Signature.sigData, Signature.keyType, signatureSize] at hlen hbytes
    have hdec : decode_bs58 64 (encodeBs58 d) = .ok d := hlen ▸ decode_bs58_encodeBs58 d hbytes
    simp [Signature.display, Signature.fromStr, Signature.keyType, Signature.sigData,
      split_key_type_data_display, hdec]
  | secp256k1 d =>
    simp only [Signature.sigData, Signature.keyType, signatureSize] at hlen hbytes
    have hdec : decode_bs58 65 (encodeBs58 d) = .ok d := hlen ▸ decode_bs58_encodeBs58 d hbytes
    simp [Signature.display, Signature.fromStr, Signature.keyType, Signature.sigData,
      split_key_type_data_display, hdec]
  | rsa d =>
    simp only [Signature.sigData, Signature.keyType, signatureSize] at hlen hbytes
    have hdec : decode_bs58 256 (encodeBs58 d) = .ok d := hlen ▸ decode_bs58_encodeBs58 d hbytes
    simp [Signature.display, Signature.fromStr, Signature.keyType, Signature.sigData,
      split_key_type_data_display, hdec]

theorem borsh_publicKey_round_trip (pk : PublicKey)
    (hlen : pk.keyData.length = publicKeySize pk.keyType) :
    borshDeserializePublicKey (borshSerializePublicKey pk) = .ok (pk, []) := by
  cases pk with
  | ed25519 d =>
    simp only [PublicKey.keyData, PublicKey.keyType, publicKeySize] at hlen
    have ht : d.take 32 = d := by rw [← hlen]; exact List.take_length d
    have hd : d.drop 32 = [] := by rw [← hlen]; exact List.drop_length d
    simp [borshSerializePublicKey, borshDeserializePublicKey, PublicKey.keyData,
      PublicKey.keyType, KeyType.tagByte, KeyType.fromByte, readBytes, hlen, ht, hd]
  | secp256k1 d =>
    simp only [PublicKey.keyData, PublicKey.keyType, publicKeySize] at hlen
    have ht : d.take 64 = d := by rw [← hlen]; exact List.take_length d
    have hd : d.drop 64 = [] := by rw [← hlen]; exact List.drop_length d
    simp [borshSerializePublicKey, borshDeserializePublicKey, PublicKey.keyData,
      PublicKey.keyType, KeyType.tagByte, KeyType.fromByte, readBytes, hlen, ht, hd]
  | rsa d =>
    simp only [PublicKey.keyData, PublicKey.keyType, publicKeySize] at hlen
    have ht : d.take 294 = d := by rw [← hlen]; exact List.take_length d
    have hd : d.drop 294 = [] := by rw [← hlen]; exact List.drop_length d
    simp [borshSerializePublicKey, borshDeserializePublicKey, PublicKey.keyData,
      PublicKey.keyType, KeyType.tagByte, KeyType.fromByte, readBytes, hlen, ht, hd]

theorem borsh_signature_round_trip (sig : Signature) (hs : sig.fromSigning) :
    borshDeserializeSignature (borshSerializeSignature sig) = .ok (sig, []) := by
  obtain ⟨⟨hlen, hbytes⟩, hextra⟩ := hs
  cases sig with
  | ed25519 d =>
    simp only [Signature.sigData, Signature.keyType, signatureSize] at hlen hbytes
    simp only at hextra
    have ht : d.take 64 = d := by rw [← hlen]; exact List.take_length d
    have hd : d.drop 64 = [] := by rw [← hlen]; exact List.drop_length d
    simp [borshSerializeSignature, borshDeserializeSignature, Signature.sigData,
      Signature.keyType, KeyType.tagByte, KeyType.fromByte, readBytes, hlen, ht, hd, hextra]
    rw [← List.getD_eq_getElem d 0 (by omega)]
    exact hextra
  | secp256k1 d =>
    simp only [Signature.sigData, Signature.keyType, signatureSize] at hlen hbytes
    have ht : d.take 65 = d := by rw [← hlen]; exact List.take_length d
    have hd : d.drop 65 = [] := by rw [← hlen]; exact List.drop_length d
    simp [borshSerializeSignature, borshDeserializeSignature, Signature.sigData,
      Signature.keyType, KeyType.tagByte, KeyType.fromByte, readBytes, hlen, ht, hd]
  | rsa d =>
    simp only [Signature.sigData, Signature.keyType, signatureSize] at hlen hbytes
    have ht : d.take 256 = d := by rw [← hlen]; exact List.take_length d
    have hd : d.drop 256 = [] := by rw [← hlen]; exact List.drop_length d
    simp [borshSerializeSignature, borshDeserializeSignature, Signature.sigData,
      Signature.keyType, KeyType.tagByte, KeyType.fromByte, readBytes, hlen, ht, hd]

theorem getD_take_of_lt {α : Type} (l : List α) (n i : Nat) (d : α) (h : i < n) :
    (l.take n).getD i d = l.getD i d := by
  simp [List.getD_eq_getElem?_getD, List.getElem?_take, h]

theorem decode_bs58_ok_iff (n : Nat) (s : List Char) (b : List Nat) :
    decode_bs58 n s = .ok b ↔ b58Valid s ∧ b = bs58Decoded s ∧ b.length = n := by
  constructor
  · intro h
    unfold decode_bs58 at h
    cases hib : bs58DecodeIntoBuf n s with
    | error e => rw [hib] at h; cases e <;> simp at h
    | ok bytes =>
      rw [hib] at h
      simp only at h
      by_cases hbn : bytes.length = n
      · rw [if_pos hbn] at h
        simp only [Except.ok.injEq] at h
        subst h
        obtain ⟨hv, hbe, _⟩ := bs58DecodeIntoBuf_ok_inv n s bytes hib
        exact ⟨hv, hbe, hbn⟩
      · rw [if_neg hbn] at h; simp at h
  · rintro ⟨hv, rfl, hlen⟩
    unfold decode_bs58
    rw [bs58DecodeIntoBuf_ok n s hv (by omega)]
    simp only
    rw [if_pos hlen]

theorem decode_bs58_short (n : Nat) (s : List Char) (hv : b58Valid s)
    (hlt : (bs58Decoded s).length < n) :
    decode_bs58 n s = .error (.badLength n (bs58Decoded s).length) := by
  unfold decode_bs58
  rw [bs58DecodeIntoBuf_ok n s hv (by omega)]
  simp only
  rw [if_neg (by omega)]

theorem decode_bs58_long (n : Nat) (s : List Char) (hv : b58Valid s)
    (hgt : n < (bs58Decoded s).length) :
    decode_bs58 n s = .error (.badLength n (n + 1)) := by
  unfold decode_bs58
  rw [bs58DecodeIntoBuf_tooSmall n s hv hgt]

theorem decode_bs58_badData (n : Nat) (s : List Char) (hnv : ¬ b58Valid s)
    (hpre : b58ValueAcc 0 (s.takeWhile (fun c => (b58Digit c).isSome)) < 256 ^ n) :
    decode_bs58 n s = .error .badData := by
  unfold decode_bs58
  rw [bs58DecodeIntoBuf_badChar n s hnv hpre]

theorem decode_bs58_badChar_long (n : Nat) (s : List Char) (hnv : ¬ b58Valid s)
    (hpre : 256 ^ n ≤ b58ValueAcc 0 (s.takeWhile (fun c => (b58Digit c).isSome))) :
    decode_bs58 n s = .error (.badLength n (n + 1)) := by
  unfold decode_bs58
  rw [bs58DecodeIntoBuf_badChar_overflow n s hnv hpre]

/-- C1: the claim says `Signature::verify` never panics and in particular
returns `false` when an RSA signature is checked against
`PublicKey::empty(RSA2048)`.  The code instead unwraps the DER decoding of
the stored public key, which fails on the 294 zero bytes, so `verify` panics
(`none` in the model) for every choice of the external primitives, signature
bytes and message. -/
theorem C1_verify_rsa_empty_key_panics (P : CryptoPrims) (sigBytes data : List Nat) :
    Signature.verify P (.rsa sigBytes) data (PublicKey.empty .rsa2048) = none := by
  have h : rsaSpkiDecodeOk (List.replicate 294 0) = false := by decide
  show (if rsaSpkiDecodeOk (List.replicate 294 0)
      then some (P.rsaVerify (List.replicate 294 0) data sigBytes) else none) = none
  rw [h]
  rfl

/-- C2: the claim says `Secp256K1Signature::recover` returns an
`InvalidData` error — never panics — on a malformed recovery-id byte.  The
code unwraps `RecoveryId::from_i32`, which rejects bytes above 3, so a
signature whose 65th byte is 4 makes `recover` panic (`none` in the model)
for every choice of the external primitives and message digest. -/
theorem C2_recover_bad_recovery_id_panics (P : CryptoPrims) (msg : List Nat) :
    secp256K1SignatureRecover P (List.replicate 64 0 ++ [4]) msg = none := by
  have h : (List.replicate 64 0 ++ [4] : List Nat).getD 64 0 = 4 := by decide
  unfold secp256K1SignatureRecover
  rw [h, if_pos (by omega)]

/-- C3: borsh-deserializing a `Signature` with tag byte 0 (Ed25519) fails
with an `InvalidData` error whenever the top three bits of the 64th
signature byte are set, and with 64 available payload bytes and those bits
clear it succeeds with exactly those bytes. -/
theorem C3_borsh_ed25519_signature_check (payload : List Nat)
    (h64 : 64 ≤ payload.length) :
    (Nat.land (payload.getD 63 0) 224 ≠ 0 →
      borshDeserializeSignature (0 :: payload) = .error .invalidData) ∧
    (Nat.land (payload.getD 63 0) 224 = 0 →
      borshDeserializeSignature (0 :: payload) =
        .ok (.ed25519 (payload.take 64), payload.drop 64)) := by
  have hta : (payload.take 64).getD 63 0 = payload.getD 63 0 :=
    getD_take_of_lt payload 64 63 0 (by omega)
  constructor
  · intro hbit
    simp [borshDeserializeSignature, KeyType.fromByte, readBytes, h64, hta]
    rw [← List.getD_eq_getElem payload 0 (by omega)]
    exact hbit
  · intro hbit
    simp [borshDeserializeSignature, KeyType.fromByte, readBytes, h64, hta]
    rw [← List.getD_eq_getElem payload 0 (by omega)]
    exact hbit

/-- Witness for C3 at concrete inputs: payload of 63 zeros and a final byte
224 is rejected; payload of 64 zeros is accepted with exactly those bytes. -/
theorem C3_borsh_ed25519_signature_check_witness :
    borshDeserializeSignature (0 :: (List.replicate 63 0 ++ [224])) = .error .invalidData ∧
    borshDeserializeSignature (0 :: List.replicate 64 0) =
      .ok (.ed25519 ((List.replicate 64 0).take 64), (List.replicate 64 0).drop 64) := by
  constructor
  · exact (C3_borsh_ed25519_signature_check (List.replicate 63 0 ++ [224])
      (by decide)).1 (by decide)
  · exact (C3_borsh_ed25519_signature_check (List.replicate 64 0)
      (by decide)).2 (by decide)

/-- C4: binary round trip — borsh-deserializing the borsh serialization of
any `PublicKey` returns it unchanged, and likewise for any `Signature`
producible by signing (for Ed25519 the signing primitive always emits a
final byte with clear top bits, which the deserializer checks). -/
theorem C4_borsh_round_trip (pk : PublicKey) (sig : Signature)
    (hpk : pk.wf) (hsig : sig.fromSigning) :
    borshDeserializePublicKey (borshSerializePublicKey pk) = .ok (pk, []) ∧
    borshDeserializeSignature (borshSerializeSignature sig) = .ok (sig, []) :=
  ⟨borsh_publicKey_round_trip pk hpk.1, borsh_signature_round_trip sig hsig⟩

/-- Witness for C4 at concrete inputs: the empty Ed25519 public key and the
all-zero Ed25519 signature round-trip through borsh. -/
theorem C4_borsh_round_trip_witness :
    borshDeserializePublicKey (borshSerializePublicKey (PublicKey.empty .ed25519)) =
      .ok (PublicKey.empty .ed25519, []) ∧
    borshDeserializeSignature (borshSerializeSignature (.ed25519 (List.replicate 64 0))) =
      .ok (.ed25519 (List.replicate 64 0), []) := by
  have h := C4_borsh_round_trip (PublicKey.empty .ed25519)
    (.ed25519 (List.replicate 64 0)) (by decide) (by decide)
  exact h

/-- C5: textual round trip — parsing the `Display` form with `FromStr`
returns the original value, for every well-formed `PublicKey`, `SecretKey`
and `Signature` of every algorithm. -/
theorem C5_text_round_trip (pk : PublicKey) (sk : SecretKey) (sig : Signature)
    (hpk : pk.wf) (hsk : sk.wf) (hsig : sig.wf) :
    PublicKey.fromStr pk.display = .ok pk ∧
    SecretKey.fromStr sk.display = .ok sk ∧
    Signature.fromStr sig.display = .ok sig :=
  ⟨publicKey_fromStr_display pk hpk, secretKey_fromStr_display sk hsk,
    signature_fromStr_display sig hsig⟩

/-- Witness for C5 at concrete inputs: the empty Ed25519 public key, the
all-zero Ed25519 secret key material and the all-zero Ed25519 signature all
round-trip through their textual forms. -/
theorem C5_text_round_trip_witness :
    PublicKey.fromStr (PublicKey.empty .ed25519).display = .ok (PublicKey.empty .ed25519) ∧
    SecretKey.fromStr (SecretKey.ed25519 (List.replicate 64 0)).display =
      .ok (.ed25519 (List.replicate 64 0)) ∧
    Signature.fromStr (Signature.ed25519 (List.replicate 64 0)).display =
      .ok (.ed25519 (List.replicate 64 0)) := by
  exact C5_text_round_trip (PublicKey.empty .ed25519) (.ed25519 (List.replicate 64 0))
    (.ed25519 (List.replicate 64 0)) (by decide) (by decide) (by decide)

/-- C6 counterexample: the claim reads `check_signature_values(true)` as
accepting exactly when `r` and `s` are below the curve order and `s` is at
most half the curve order plus one.  At a signature whose `s` equals half
the order plus one the code rejects (`s < SECP256K1_N_HALF_ONE` is strict),
while the claimed condition holds, so the biconditional fails there. -/
theorem C6_counterexample :
    ¬ (check_signature_values c6SigBytes true = true ↔
      (natOfBEBase 256 (c6SigBytes.take 32) < SECP256K1_N ∧
       natOfBEBase 256 ((c6SigBytes.drop 32).take 32) < SECP256K1_N ∧
       natOfBEBase 256 ((c6SigBytes.drop 32).take 32) ≤ SECP256K1_N / 2 + 1)) := by
  decide

/-- C6 amended: `check_signature_values(reject_upper)` returns true exactly
when the big-endian `r` and `s` words are each strictly below the curve
order and, when `reject_upper` is set, `s` is strictly below half the curve
order plus one; consequently the concrete signature whose `s` is just above
half the order passes the lax check and fails the strict one. -/
theorem C6_check_signature_values_amended :
    (∀ (sig : List Nat) (rejectUpper : Bool),
      check_signature_values sig rejectUpper = true ↔
        (natOfBEBase 256 (sig.take 32) < SECP256K1_N ∧
         natOfBEBase 256 ((sig.drop 32).take 32) < SECP256K1_N ∧
         (rejectUpper = true →
           natOfBEBase 256 ((sig.drop 32).take 32) < SECP256K1_N / 2 + 1))) ∧
    check_signature_values c6SigBytes false = true ∧
    check_signature_values c6SigBytes true = false := by
  have hh : SECP256K1_N_HALF_ONE = SECP256K1_N / 2 + 1 := by decide
  have hNle : SECP256K1_N / 2 + 1 ≤ SECP256K1_N := by decide
  refine ⟨?_, by decide, by decide⟩
  intro sig u
  cases u with
  | false =>
    simp only [check_signature_values, if_false, Bool.and_eq_true, decide_eq_true_eq]
    constructor
    · rintro ⟨hr, hs⟩
      exact ⟨hr, hs, by simp⟩
    · rintro ⟨hr, hs, _⟩
      exact ⟨hr, hs⟩
  | true =>
    simp only [check_signature_values, if_true, Bool.and_eq_true, decide_eq_true_eq, hh]
    constructor
    · rintro ⟨hr, hs⟩
      exact ⟨hr, by omega, fun _ => hs⟩
    · rintro ⟨hr, _, himp⟩
      exact ⟨hr, himp (by simp)⟩

set_option maxRecDepth 4000 in
/-- C7: `PublicKey::empty` yields the all-zero key of the variant's fixed
length, and its textual form is the algorithm name, a colon, and one `'1'`
character per payload byte (32, 64 and 294 respectively). -/
theorem C7_empty_key_display :
    (∀ t : KeyType, (PublicKey.empty t).keyType = t ∧
      (PublicKey.empty t).keyData = List.replicate (publicKeySize t) 0) ∧
    PublicKey.display (PublicKey.empty .ed25519) =
      KeyType.name .ed25519 ++ ':' :: List.replicate 32 '1' ∧
    PublicKey.display (PublicKey.empty .secp256k1) =
      KeyType.name .secp256k1 ++ ':' :: List.replicate 64 '1' ∧
    PublicKey.display (PublicKey.empty .rsa2048) =
      KeyType.name .rsa2048 ++ ':' :: List.replicate 294 '1' := by
  refine ⟨?_, by decide, by decide, by decide⟩
  intro t
  cases t <;> exact ⟨rfl, rfl⟩

/-- C8 counterexample: the claim says an invalid base58 character fails with
`BadData`.  On the input of four `'2'` characters followed by `'!'` with a
2-byte buffer, the accumulated number outgrows the buffer before the decoder
reaches the invalid character, so the code returns
`BadLength(expected 2, received 3)` instead of `BadData`. -/
theorem C8_counterexample :
    (¬ b58Valid ['2', '2', '2', '2', '!']) ∧
    decode_bs58 2 ['2', '2', '2', '2', '!'] = .error (.badLength 2 3) := by
  constructor
  · decide
  · rfl

/-- C8 amended: fixed-length base58 decoding into an `N`-byte buffer
succeeds exactly when the input is valid base58 and decodes to exactly `N`
bytes; a valid input decoding to fewer bytes fails with `BadLength(N, k)`;
a valid input decoding to more bytes fails with `BadLength(N, N + 1)`; an
input with an invalid character fails with `BadData` provided the valid
prefix before the first bad character still fits the buffer, and otherwise
(prefix already overflown) with `BadLength(N, N + 1)`; `BadLength` converts
to the public `InvalidLength` parse error and `BadData` to `InvalidData`. -/
theorem C8_decode_bs58_amended (n : Nat) (s : List Char) :
    (∀ b : List Nat, decode_bs58 n s = .ok b ↔
      b58Valid s ∧ b = bs58Decoded s ∧ b.length = n) ∧
    (b58Valid s → (bs58Decoded s).length < n →
      decode_bs58 n s = .error (.badLength n (bs58Decoded s).length)) ∧
    (b58Valid s → n < (bs58Decoded s).length →
      decode_bs58 n s = .error (.badLength n (n + 1))) ∧
    (¬ b58Valid s →
      b58ValueAcc 0 (s.takeWhile (fun c => (b58Digit c).isSome)) < 256 ^ n →
      decode_bs58 n s = .error .badData) ∧
    (¬ b58Valid s →
      256 ^ n ≤ b58ValueAcc 0 (s.takeWhile (fun c => (b58Digit c).isSome)) →
      decode_bs58 n s = .error (.badLength n (n + 1))) ∧
    (∀ e r : Nat, (DecodeBs58Error.badLength e r).toParseKeyError = .invalidLength e r ∧
      (DecodeBs58Error.badLength e r).toParseSignatureError = .invalidLength e r) ∧
    DecodeBs58Error.badData.toParseKeyError = .invalidData ∧
    DecodeBs58Error.badData.toParseSignatureError = .invalidData := by
  exact ⟨fun b => decode_bs58_ok_iff n s b,
    decode_bs58_short n s, decode_bs58_long n s,
    decode_bs58_badData n s, decode_bs58_badChar_long n s,
    fun e r => ⟨rfl, rfl⟩, rfl, rfl⟩

/-- Witness for C8 at concrete inputs: two `'1'` characters decode into a
2-byte buffer as two zero bytes, and a lone `'!'` fails with `BadData`. -/
theorem C8_decode_bs58_amended_witness :
    decode_bs58 2 ['1', '1'] = .ok [0, 0] ∧
    decode_bs58 2 ['!'] = .error .badData := by
  constructor
  · exact ((C8_decode_bs58_amended 2 ['1', '1']).1 [0, 0]).mpr
      ⟨by decide, by decide, by decide⟩
  · exact (C8_decode_bs58_amended 2 ['!']).2.2.2.1 (by decide) (by decide)

/-- C9: textual input with no colon is treated as Ed25519 data:
`split_key_type_data` yields the Ed25519 tag with the whole string, and
parsing such a string as a `PublicKey`, `SecretKey` or `Signature` agrees
with parsing it after prepending the explicit `ed25519:` prefix. -/
theorem C9_no_colon_defaults_ed25519 (s : List Char) (hnc : ':' ∉ s) :
    split_key_type_data s = .ok (.ed25519, s) ∧
    PublicKey.fromStr s = PublicKey.fromStr (KeyType.name .ed25519 ++ ':' :: s) ∧
    SecretKey.fromStr s = SecretKey.fromStr (KeyType.name .ed25519 ++ ':' :: s) ∧
    Signature.fromStr s = Signature.fromStr (KeyType.name .ed25519 ++ ':' :: s) := by
  have h1 := split_key_type_data_no_colon s hnc
  have h2 := split_key_type_data_display .ed25519 s
  refine ⟨h1, ?_, ?_, ?_⟩
  · simp only [PublicKey.fromStr, h1, h2]
  · simp only [SecretKey.fromStr, h1, h2]
  · simp only [Signature.fromStr, h1, h2]

/-- Witness for C9 at a concrete input: the colon-free string of characters
a, b, c. -/
theorem C9_no_colon_defaults_ed25519_witness :
    split_key_type_data ['a', 'b', 'c'] = .ok (.ed25519, ['a', 'b', 'c']) ∧
    PublicKey.fromStr ['a', 'b', 'c'] =
      PublicKey.fromStr (KeyType.name .ed25519 ++ ':' :: ['a', 'b', 'c']) := by
  have h := C9_no_colon_defaults_ed25519 ['a', 'b', 'c'] (by decide)
  exact ⟨h.1, h.2.1⟩

/-- C10: the textual and binary decoders disagree on Ed25519 signature
validity: a 64-byte value with a top bit of its last byte set parses
successfully from its textual form (no structural check in `FromStr`), while
the borsh deserialization of the same bytes under tag 0 is rejected with a
data error. -/
theorem C10_text_binary_disagree (b : List Nat) (hlen : b.length = 64)
    (hbytes : ∀ x ∈ b, x < 256) (hbit : Nat.land (b.getD 63 0) 224 ≠ 0) :
    Signature.fromStr (Signature.display (.ed25519 b)) = .ok (.ed25519 b) ∧
    borshDeserializeSignature (0 :: b) = .error .invalidData := by
  refine ⟨signature_fromStr_display (.ed25519 b) ⟨hlen, hbytes⟩, ?_⟩
  have hta : (b.take 64).getD 63 0 = b.getD 63 0 :=
    getD_take_of_lt b 64 63 0 (by omega)
  simp [borshDeserializeSignature, KeyType.fromByte, readBytes, hlen, hta]
  rw [← List.getD_eq_getElem b 0 (by omega)]
  exact hbit

/-- Witness for C10 at a concrete input: 63 zero bytes with final byte 224. -/
theorem C10_text_binary_disagree_witness :
    Signature.fromStr (Signature.display (.ed25519 (List.replicate 63 0 ++ [224]))) =
      .ok (.ed25519 (List.replicate 63 0 ++ [224])) ∧
    borshDeserializeSignature (0 :: (List.replicate 63 0 ++ [224])) =
      .error .invalidData := by
  exact C10_text_binary_disagree (List.replicate 63 0 ++ [224])
    (by decide) (by decide) (by decide)

/-- Witness for C6 at the concrete signature: the strict check rejects the
just-above-half `s` value while the lax check accepts it. -/
theorem C6_check_signature_values_amended_witness :
    check_signature_values c6SigBytes false = true ∧
    check_signature_values c6SigBytes true = false :=
  ⟨C6_check_signature_values_amended.2.1, C6_check_signature_values_amended.2.2⟩
